import Mathlib

/-!
Verification of the streaming chat reducer of `observability-assistant-ui`.

The development shallowly embeds `src/hooks/useAgUiStream.ts` (the fetch-based
variant with the `handleEvent` dispatcher, together with the subscriber
variant's `onStepFinishedEvent`) and `src/types/agui.ts`.  JavaScript `Map`s
are modelled as insertion-ordered association lists, the `Date.now()` id
supply is modelled as a strictly increasing counter threaded through the
state, and JavaScript strings are Lean `String`s (the SSE byte loop works on
`List Char`).
-/

namespace AgUi

/-- ToolCall from `src/types/agui.ts`: accumulated args, optional result,
loading flag. -/
structure ToolCall where
  id : String
  name : String
  args : String
  result : Option String := none
  isLoading : Bool := false
  deriving DecidableEq

/-- Step from `src/types/agui.ts`.  The status is a runtime string: the
TypeScript union lists pending, in-progress, done and failed, but the CUSTOM
handler casts an arbitrary wire string into the field, so the embedding keeps
the field as `String`. -/
structure Step where
  id : String
  name : String
  status : String
  activeForm : Option String := none
  deriving DecidableEq

/-- ContentBlock from `src/types/agui.ts`: one ordered ledger entry. -/
inductive ContentBlock where
  | text (id : String) (content : String)
  | steps (id : String)
  | tools (id : String)
  deriving DecidableEq

/-- Error payload attached to a message. -/
structure MessageError where
  title : String
  body : String
  deriving DecidableEq

/-- ChatMessage from `src/types/agui.ts`. -/
structure ChatMessage where
  id : String
  role : String
  content : String
  isStreaming : Bool := false
  toolCalls : List ToolCall := []
  steps : List Step := []
  contentBlocks : List ContentBlock := []
  error : Option MessageError := none
  deriving DecidableEq

/-- Payload of the custom step_update event.  An absent or empty activeForm is
modelled as the empty string, which is falsy in JavaScript exactly like the
absent value. -/
structure StepUpdatePayload where
  stepName : String
  status : String
  activeForm : String
  deriving DecidableEq

/-- AgUiEvent union from `src/types/agui.ts` plus the CUSTOM envelope consumed
by `handleEvent`.  Fields the reducer ignores (message ids, run ids) are kept
for fidelity to the wire type. -/
inductive AgUiEvent where
  | runStarted (runId : String)
  | runFinished (runId : String)
  | runError (message : String)
  | textMessageStart (messageId : String)
  | textMessageContent (messageId : String) (delta : String)
  | textMessageEnd (messageId : String)
  | toolCallStart (toolCallId : String) (toolCallName : String)
  | toolCallArgs (toolCallId : String) (delta : String)
  | toolCallEnd (toolCallId : String)
  | toolCallResult (toolCallId : String) (content : String)
  | stepStarted (stepName : String) (stepId : Option String)
  | stepFinished (stepName : String) (stepId : Option String)
  | custom (name : String) (value : StepUpdatePayload)
  deriving DecidableEq

/-- Lookup in a JavaScript `Map` modelled as an insertion-ordered association
list: the value of the first entry with the given key. -/
def mapGet {α : Type} (m : List (String × α)) (k : String) : Option α :=
  match m with
  | [] => none
  | p :: rest => if p.1 == k then some p.2 else mapGet rest k

/-- `Map.set`: replace the value of the first entry with the given key in
place, otherwise append a new entry, preserving insertion order. -/
def mapSet {α : Type} (m : List (String × α)) (k : String) (v : α) :
    List (String × α) :=
  match m with
  | [] => [(k, v)]
  | p :: rest => if p.1 == k then (k, v) :: rest else p :: mapSet rest k v

/-- `Array.from(map.values())`. -/
def mapValues {α : Type} (m : List (String × α)) : List α :=
  m.map (fun p => p.2)

/-- Full state of the hook: React state (messages, flags, error) plus the
per-run refs.  `nextId` models the `Date.now()` timestamp supply as a
counter. -/
structure HookState where
  messages : List ChatMessage
  isStreaming : Bool
  runActive : Bool
  error : Option String
  currentMessage : Option ChatMessage
  toolCalls : List (String × ToolCall)
  steps : List (String × Step)
  contentBlocks : List ContentBlock
  currentTextBlockId : Option String
  hasStepsBlock : Bool
  hasToolsBlock : Bool
  nextId : Nat
  deriving DecidableEq

/-- Initial hook state: empty message list, no run, all refs reset. -/
def initState : HookState :=
  { messages := []
    isStreaming := false
    runActive := false
    error := none
    currentMessage := none
    toolCalls := []
    steps := []
    contentBlocks := []
    currentTextBlockId := none
    hasStepsBlock := false
    hasToolsBlock := false
    nextId := 0 }

/-- Draw a fresh id from the timestamp supply, as `prefixStr-${Date.now()}`
does in the source. -/
def freshId (pre : String) (st : HookState) : String × HookState :=
  (pre ++ Nat.repr st.nextId, { st with nextId := st.nextId + 1 })

/-- ensureAssistantMessage: if no current message exists, create a streaming
assistant message, clear every per-run ref, and append the message to the
list. -/
def ensureAssistantMessage (st : HookState) : HookState :=
  match st.currentMessage with
  | some _ => st
  | none =>
    let idSt := freshId "assistant-" st
    let newMessage : ChatMessage :=
      { id := idSt.1
        role := "assistant"
        content := ""
        isStreaming := true
        toolCalls := []
        steps := []
        contentBlocks := []
        error := none }
    { idSt.2 with
      currentMessage := some newMessage
      toolCalls := []
      steps := []
      contentBlocks := []
      currentTextBlockId := none
      hasStepsBlock := false
      hasToolsBlock := false
      messages := st.messages ++ [newMessage] }

/-- Replace the first message with the given id, as the `findIndex` plus
slice-splice update in the source does. -/
def replaceById (id : String) (m : ChatMessage) :
    List ChatMessage → List ChatMessage
  | [] => []
  | x :: xs => if x.id == id then m :: xs else x :: replaceById id m xs

/-- updateCurrentMessage: merge the updates into the current message and
publish the snapshot into the message list by identity match on the message
id (append when absent). -/
def updateCurrentMessage (updates : ChatMessage → ChatMessage)
    (st : HookState) : HookState :=
  match st.currentMessage with
  | none => st
  | some m =>
    let updated := updates m
    { st with
      currentMessage := some updated
      messages :=
        if st.messages.any (fun x => x.id == updated.id) then
          replaceById updated.id updated st.messages
        else
          st.messages ++ [updated] }

/-- Append the delta to the first text block with the given id, as
`contentBlocksRef.current.find` followed by the in-place `+=` does; when no
block matches, the ledger is unchanged. -/
def addDeltaToBlock (tid delta : String) :
    List ContentBlock → List ContentBlock
  | [] => []
  | b :: bs =>
    match b with
    | .text i c =>
      if i == tid then .text i (c ++ delta) :: bs
      else b :: addDeltaToBlock tid delta bs
    | _ => b :: addDeltaToBlock tid delta bs

/-- Status priority table from the source: pending 0, in-progress 1, done 2,
failed 3, with the `?? 0` fallback for unknown strings. -/
def statusPriority (s : String) : Nat :=
  if s == "pending" then 0
  else if s == "in-progress" then 1
  else if s == "done" then 2
  else if s == "failed" then 3
  else 0

/-- `event.stepId || event.stepName`: an absent or empty stepId falls back to
the step name. -/
def resolveStepId (stepId : Option String) (stepName : String) : String :=
  match stepId with
  | some s => if s == "" then stepName else s
  | none => stepName

/-- handleEvent from the fetch-based variant of `useAgUiStream.ts`: the core
transcript reducer, one case per protocol event kind. -/
def handleEvent (st : HookState) (event : AgUiEvent) : HookState :=
  match event with
  | .runStarted _ => { st with runActive := true }
  | .textMessageStart _ =>
    let st1 := ensureAssistantMessage st
    let idSt := freshId "text-" st1
    let st2 :=
      { idSt.2 with
        currentTextBlockId := some idSt.1
        contentBlocks := idSt.2.contentBlocks ++ [.text idSt.1 ""] }
    updateCurrentMessage (fun m => { m with contentBlocks := st2.contentBlocks }) st2
  | .textMessageContent _ delta =>
    let st1 := ensureAssistantMessage st
    let st2 :=
      { st1 with
        contentBlocks :=
          match st1.currentTextBlockId with
          | some tid => addDeltaToBlock tid delta st1.contentBlocks
          | none => st1.contentBlocks }
    updateCurrentMessage
      (fun m => { m with
        content := m.content ++ delta
        contentBlocks := st2.contentBlocks }) st2
  | .textMessageEnd _ => { st with currentTextBlockId := none }
  | .toolCallStart toolCallId toolCallName =>
    let st1 := ensureAssistantMessage st
    let st2 :=
      if st1.hasToolsBlock then st1
      else
        { st1 with
          hasToolsBlock := true
          contentBlocks := st1.contentBlocks ++ [.tools "tools"] }
    let toolCall : ToolCall :=
      { id := toolCallId, name := toolCallName, args := "",
        result := none, isLoading := true }
    let st3 := { st2 with toolCalls := mapSet st2.toolCalls toolCallId toolCall }
    updateCurrentMessage
      (fun m => { m with
        toolCalls := mapValues st3.toolCalls
        contentBlocks := st3.contentBlocks }) st3
  | .toolCallArgs toolCallId delta =>
    match mapGet st.toolCalls toolCallId with
    | none => st
    | some toolCall =>
      let st1 :=
        { st with
          toolCalls := mapSet st.toolCalls toolCallId
            { toolCall with args := toolCall.args ++ delta } }
      updateCurrentMessage
        (fun m => { m with toolCalls := mapValues st1.toolCalls }) st1
  | .toolCallEnd toolCallId =>
    match mapGet st.toolCalls toolCallId with
    | none => st
    | some toolCall =>
      let st1 :=
        { st with
          toolCalls := mapSet st.toolCalls toolCallId
            { toolCall with isLoading := false } }
      updateCurrentMessage
        (fun m => { m with toolCalls := mapValues st1.toolCalls }) st1
  | .toolCallResult toolCallId content =>
    match mapGet st.toolCalls toolCallId with
    | none => st
    | some toolCall =>
      let st1 :=
        { st with
          toolCalls := mapSet st.toolCalls toolCallId
            { toolCall with result := some content, isLoading := false } }
      updateCurrentMessage
        (fun m => { m with toolCalls := mapValues st1.toolCalls }) st1
  | .stepStarted stepName stepId =>
    let st1 := ensureAssistantMessage st
    let st2 :=
      if st1.hasStepsBlock then st1
      else
        { st1 with
          hasStepsBlock := true
          contentBlocks := st1.contentBlocks ++ [.steps "steps"] }
    let sid := resolveStepId stepId stepName
    if (mapGet st2.steps sid).isSome then st2
    else
      let step : Step :=
        { id := sid, name := stepName, status := "pending", activeForm := none }
      let st3 := { st2 with steps := mapSet st2.steps sid step }
      updateCurrentMessage
        (fun m => { m with
          steps := mapValues st3.steps
          contentBlocks := st3.contentBlocks }) st3
  | .stepFinished stepName stepId =>
    let sid := resolveStepId stepId stepName
    match mapGet st.steps sid with
    | none => st
    | some step =>
      if step.status == "failed" then st
      else
        let st1 :=
          { st with
            steps := mapSet st.steps sid
              { step with status := "done", activeForm := none } }
        updateCurrentMessage
          (fun m => { m with steps := mapValues st1.steps }) st1
  | .custom name value =>
    if name == "step_update" then
      let stepId := value.stepName
      let found := mapGet st.steps stepId
      let stSt : HookState × Step :=
        match found with
        | some step => (st, step)
        | none =>
          let st1 := ensureAssistantMessage st
          let st2 :=
            if st1.hasStepsBlock then st1
            else
              { st1 with
                hasStepsBlock := true
                contentBlocks := st1.contentBlocks ++ [.steps "steps"] }
          let step : Step :=
            { id := stepId, name := value.stepName,
              status := "pending", activeForm := none }
          ({ st2 with steps := mapSet st2.steps stepId step }, step)
      let newStatus :=
        if value.status == "in_progress" then "in-progress" else value.status
      if statusPriority newStatus ≥ statusPriority stSt.2.status then
        let st3 :=
          { stSt.1 with
            steps := mapSet stSt.1.steps stepId
              { stSt.2 with
                status := newStatus
                activeForm :=
                  if value.activeForm == "" then none else some value.activeForm } }
        updateCurrentMessage
          (fun m => { m with
            steps := mapValues st3.steps
            contentBlocks := st3.contentBlocks }) st3
      else stSt.1
    else st
  | .runError message =>
    let st1 := ensureAssistantMessage st
    let st2 := updateCurrentMessage
      (fun m => { m with
        isStreaming := false
        error := some { title := "Error", body := message } }) st1
    { st2 with
      currentMessage := none
      toolCalls := []
      steps := []
      contentBlocks := []
      currentTextBlockId := none
      hasStepsBlock := false
      hasToolsBlock := false
      error := some message
      runActive := false
      isStreaming := false }
  | .runFinished _ =>
    let st1 := updateCurrentMessage (fun m => { m with isStreaming := false }) st
    { st1 with
      currentMessage := none
      toolCalls := []
      steps := []
      contentBlocks := []
      currentTextBlockId := none
      hasStepsBlock := false
      hasToolsBlock := false
      runActive := false
      isStreaming := false }

/-- Apply a sequence of decoded events in order. -/
def processEvents (st : HookState) (events : List AgUiEvent) : HookState :=
  events.foldl handleEvent st

/-- onStepFinishedEvent from the subscriber variant (first evolution) of
`useAgUiStream.ts`: unlike the fetch-based `handleEvent`, it creates a
missing step defensively (pending) before applying the finish under the
priority gate. -/
def onStepFinishedEvent (st : HookState) (stepName : String) : HookState :=
  let stepId := stepName
  let stSt : HookState × Step :=
    match mapGet st.steps stepId with
    | some step => (st, step)
    | none =>
      let st1 := ensureAssistantMessage st
      let st2 :=
        if st1.hasStepsBlock then st1
        else
          { st1 with
            hasStepsBlock := true
            contentBlocks := st1.contentBlocks ++ [.steps "steps"] }
      let step : Step :=
        { id := stepId, name := stepName, status := "pending", activeForm := none }
      ({ st2 with steps := mapSet st2.steps stepId step }, step)
  if statusPriority "done" ≥ statusPriority stSt.2.status then
    let st3 :=
      { stSt.1 with
        steps := mapSet stSt.1.steps stepId
          { stSt.2 with status := "done", activeForm := none } }
    updateCurrentMessage
      (fun m => { m with
        steps := mapValues st3.steps
        contentBlocks := st3.contentBlocks }) st3
  else stSt.1

/-- Concatenation of the text-block contents of a ledger, in ledger order:
the flattened text the spec compares the message content against. -/
def flattenText : List ContentBlock → String
  | [] => ""
  | .text _ c :: bs => c ++ flattenText bs
  | .steps _ :: bs => flattenText bs
  | .tools _ :: bs => flattenText bs

/-- True when a ledger contains no text block at all. -/
def noTextBlocks : List ContentBlock → Bool
  | [] => true
  | .text _ _ :: _ => false
  | .steps _ :: bs => noTextBlocks bs
  | .tools _ :: bs => noTextBlocks bs

/-- True when the first text block with the given id exists and no text block
follows it: appending a delta to it appends to the flattened text. -/
def currentIsLastText (tid : String) : List ContentBlock → Bool
  | [] => false
  | .text i _ :: bs => if i == tid then noTextBlocks bs else currentIsLastText tid bs
  | .steps _ :: bs => currentIsLastText tid bs
  | .tools _ :: bs => currentIsLastText tid bs

/-- Every text-block id in the ledger was drawn from the id supply below the
given counter value. -/
def textIdsBelow (n : Nat) (bs : List ContentBlock) : Prop :=
  ∀ i c, ContentBlock.text i c ∈ bs → ∃ k, k < n ∧ i = "text-" ++ Nat.repr k

/-- Invariant tying the flattened message content to the ledger. -/
structure TextInv (st : HookState) : Prop where
  msgs : ∀ m ∈ st.messages, m.content = flattenText m.contentBlocks
  curContent : ∀ m, st.currentMessage = some m →
    m.content = flattenText st.contentBlocks
  curSynced : ∀ m, st.currentMessage = some m →
    m.content = flattenText m.contentBlocks
  ptr : ∀ tid, st.currentTextBlockId = some tid →
    currentIsLastText tid st.contentBlocks = true
  fresh : textIdsBelow st.nextId st.contentBlocks

/-- A text delta is deliverable only while a message is open and a text
segment is open: the protocol sends TEXT_MESSAGE_CONTENT strictly between
TEXT_MESSAGE_START and TEXT_MESSAGE_END. -/
def textDeltaOk (st : HookState) : Bool :=
  st.currentMessage.isSome && st.currentTextBlockId.isSome

/-- Validity of an event sequence from a given state: every text delta is
delivered inside an open text segment. -/
def validSeq : HookState → List AgUiEvent → Bool
  | _, [] => true
  | st, e :: es =>
    (match e with
     | .textMessageContent _ _ => textDeltaOk st
     | _ => true) && validSeq (handleEvent st e) es

/-- Basic well-formedness of the per-run refs, true of every reachable state:
with no current message all accumulators are clear, and a nonempty step
registry implies the steps group marker was added. -/
def RunInv (st : HookState) : Prop :=
  (st.currentMessage = none →
    st.steps = [] ∧ st.toolCalls = [] ∧ st.contentBlocks = [] ∧
    st.currentTextBlockId = none ∧ st.hasStepsBlock = false ∧
    st.hasToolsBlock = false) ∧
  (st.steps ≠ [] → st.hasStepsBlock = true)

instance (st : HookState) : Decidable (RunInv st) := by
  unfold RunInv
  infer_instance

/-- An event that carries a status update for the step with the given
identifier: a STEP_FINISHED resolving to it, or a custom step_update naming
it. -/
def stepUpdateFor (s : String) : AgUiEvent → Bool
  | .stepFinished stepName stepId => resolveStepId stepId stepName == s
  | .custom name value => name == "step_update" && value.stepName == s
  | _ => false

/-! SSE decoding loop of `sendMessage` (fetch-based variant), modelled on
character lists. -/

/-- Prepend a character to the first piece of a split result. -/
def consHead (c : Char) : List (List Char) → List (List Char)
  | [] => [[c]]
  | l :: ls => (c :: l) :: ls

/-- JavaScript `buffer.split('\n')` on a character list: always a nonempty
list of newline-free pieces. -/
def splitNl : List Char → List (List Char)
  | [] => [[]]
  | c :: rest =>
    if c = '\n' then [] :: splitNl rest
    else consHead c (splitNl rest)

/-- Last element of a list with a default for the empty list, as
`lines.pop() || ''` behaves in the source. -/
def lastD {α : Type} : List α → α → α
  | [], d => d
  | [a], _ => a
  | _ :: b :: rest, d => lastD (b :: rest) d

/-- One iteration of the read loop: append the chunk to the carried buffer,
split on newlines, emit the complete lines and keep the trailing piece as the
new buffer (`lines.pop()`). -/
def chunkStep (acc : List (List Char) × List Char) (chunk : List Char) :
    List (List Char) × List Char :=
  let parts := splitNl (acc.2 ++ chunk)
  (acc.1 ++ parts.dropLast, lastD parts [])

/-- Reassemble the complete lines from a sequence of read chunks; the final
unterminated buffer is discarded, as in the source, when the stream ends. -/
def decodeLines (chunks : List (List Char)) : List (List Char) :=
  (chunks.foldl chunkStep ([], [])).1

/-- Character-at-a-time reference semantics of the line reassembly. -/
def feedChar (acc : List (List Char) × List Char) (c : Char) :
    List (List Char) × List Char :=
  if c = '\n' then (acc.1 ++ [acc.2], []) else (acc.1, acc.2 ++ [c])

/-- `line.startsWith('data: ')` combined with `line.slice(6)`: the payload of
a data line, or none for any other line. -/
def lineData : List Char → Option (List Char)
  | 'd' :: 'a' :: 't' :: 'a' :: ':' :: ' ' :: rest => some rest
  | _ => none

/-- Events contributed by one line: non-data lines are skipped, the [DONE]
sentinel is a soft end, and a payload the parser rejects is dropped with a
warning. -/
def lineEvents (parseEvent : List Char → Option AgUiEvent) (line : List Char) :
    List AgUiEvent :=
  match lineData line with
  | none => []
  | some data =>
    if data = "[DONE]".data then []
    else
      match parseEvent data with
      | some e => [e]
      | none => []

/-- Events of a sequence of complete lines. -/
def eventsOfLines (parseEvent : List Char → Option AgUiEvent)
    (lines : List (List Char)) : List AgUiEvent :=
  (lines.map (lineEvents parseEvent)).flatten

/-- Full decoding pipeline: chunked byte stream to parsed event sequence. -/
def decode (parseEvent : List Char → Option AgUiEvent)
    (chunks : List (List Char)) : List AgUiEvent :=
  eventsOfLines parseEvent (decodeLines chunks)

/-! Decimal representation helpers used to prove that the id supply never
repeats an id. -/

/-- Structural form of the decimal digit characters of a number, matching
what `Nat.toDigitsCore` computes. -/
def decChars (n : Nat) : List Char :=
  if h : n / 10 = 0 then [Nat.digitChar (n % 10)]
  else
    have : n / 10 < n :=
      Nat.div_lt_self (Nat.pos_of_ne_zero (fun h0 => h (by simp [h0]))) (by norm_num)
    decChars (n / 10) ++ [Nat.digitChar (n % 10)]

/-- Decimal evaluation of a digit-character list. -/
def decVal (ds : List Char) : Nat :=
  ds.foldl (fun a c => 10 * a + (c.toNat - 48)) 0

/-! Helper lemmas. -/

/-- Looking up the key just set returns the value just set. -/
theorem mapGet_mapSet {α : Type} (m : List (String × α)) (k : String) (v : α) :
    mapGet (mapSet m k v) k = some v := by
  induction m with
  | nil => simp [mapGet, mapSet]
  | cons p rest ih =>
    by_cases h : p.1 == k
    · simp [mapGet, mapSet, h]
    · simp only [mapSet, h]
      simp only [Bool.false_eq_true, if_false]
      simp [mapGet, h, ih]

/-- Setting one key leaves the lookup of any other key unchanged. -/
theorem mapGet_mapSet_ne {α : Type} (m : List (String × α)) (k k2 : String)
    (v : α) (h : k ≠ k2) : mapGet (mapSet m k v) k2 = mapGet m k2 := by
  induction m with
  | nil => simp [mapGet, mapSet, h]
  | cons p rest ih =>
    by_cases hp : p.1 == k
    · have hpk : p.1 = k := by simpa [beq_iff_eq] using hp
      simp [mapGet, mapSet, hp, hpk, h]
    · simp only [mapSet, hp]
      simp only [Bool.false_eq_true, if_false]
      by_cases hp2 : p.1 == k2 <;> simp [mapGet, hp2, ih]

/-- A successful lookup means the map is nonempty. -/
theorem mapGet_ne_nil {α : Type} {m : List (String × α)} {k : String} {v : α}
    (h : mapGet m k = some v) : m ≠ [] := by
  intro h0
  rw [h0] at h
  simp [mapGet] at h

/-- updateCurrentMessage only touches the message list and the current
message: the per-run refs are untouched. -/
theorem updateCurrentMessage_steps (f : ChatMessage → ChatMessage)
    (st : HookState) : (updateCurrentMessage f st).steps = st.steps := by
  unfold updateCurrentMessage
  cases st.currentMessage <;> rfl

/-- updateCurrentMessage leaves the tool-call registry unchanged. -/
theorem updateCurrentMessage_toolCalls (f : ChatMessage → ChatMessage)
    (st : HookState) : (updateCurrentMessage f st).toolCalls = st.toolCalls := by
  unfold updateCurrentMessage
  cases st.currentMessage <;> rfl

/-- updateCurrentMessage leaves the ledger unchanged. -/
theorem updateCurrentMessage_contentBlocks (f : ChatMessage → ChatMessage)
    (st : HookState) : (updateCurrentMessage f st).contentBlocks = st.contentBlocks := by
  unfold updateCurrentMessage
  cases st.currentMessage <;> rfl

/-- The replacing message is a member of the result when some entry matches
its id. -/
theorem mem_replaceById (id : String) (m : ChatMessage) (l : List ChatMessage)
    (h : l.any (fun x => x.id == id) = true) : m ∈ replaceById id m l := by
  induction l with
  | nil => simp at h
  | cons x xs ih =>
    by_cases hx : x.id == id
    · simp [replaceById, hx]
    · simp only [List.any_cons, hx, Bool.false_or] at h
      simp [replaceById, hx, ih h]

/-- After updateCurrentMessage, the updated current message is in the
message list. -/
theorem updateCurrentMessage_mem (f : ChatMessage → ChatMessage)
    (st : HookState) (m : ChatMessage) (h : st.currentMessage = some m) :
    f m ∈ (updateCurrentMessage f st).messages := by
  unfold updateCurrentMessage
  rw [h]
  by_cases ha : st.messages.any (fun x => x.id == (f m).id)
  · simpa [ha] using mem_replaceById (f m).id (f m) st.messages ha
  · simp [ha]

/-- ensureAssistantMessage always leaves a current message in place. -/
theorem ensure_isSome (st : HookState) :
    ∃ m, (ensureAssistantMessage st).currentMessage = some m := by
  unfold ensureAssistantMessage
  cases h : st.currentMessage with
  | none => exact ⟨_, rfl⟩
  | some m => exact ⟨m, h⟩

/-- ensureAssistantMessage is the identity when a current message exists. -/
theorem ensure_of_some (st : HookState) (m : ChatMessage)
    (h : st.currentMessage = some m) : ensureAssistantMessage st = st := by
  unfold ensureAssistantMessage
  rw [h]

/-- Any status other than failed has priority at most that of done. -/
theorem statusPriority_le_two (s : String) (h : (s == "failed") = false) :
    statusPriority s ≤ 2 := by
  unfold statusPriority
  repeat' split
  all_goals first | omega | simp_all

/-- One step-status update for a step never lowers the priority of its
status. -/
theorem handleEvent_step_mono (st : HookState) (e : AgUiEvent) (s : String)
    (he : stepUpdateFor s e = true) (step : Step)
    (h : mapGet st.steps s = some step) :
    ∃ step2, mapGet (handleEvent st e).steps s = some step2 ∧
      statusPriority step.status ≤ statusPriority step2.status := by
  cases e with
  | runStarted a => simp [stepUpdateFor] at he
  | runFinished a => simp [stepUpdateFor] at he
  | runError a => simp [stepUpdateFor] at he
  | textMessageStart a => simp [stepUpdateFor] at he
  | textMessageContent a b => simp [stepUpdateFor] at he
  | textMessageEnd a => simp [stepUpdateFor] at he
  | toolCallStart a b => simp [stepUpdateFor] at he
  | toolCallArgs a b => simp [stepUpdateFor] at he
  | toolCallEnd a => simp [stepUpdateFor] at he
  | toolCallResult a b => simp [stepUpdateFor] at he
  | stepStarted a b => simp [stepUpdateFor] at he
  | stepFinished n i =>
    have hid : resolveStepId i n = s := by simpa [stepUpdateFor] using he
    by_cases hf : (step.status == "failed") = true
    · refine ⟨step, ?_, le_refl _⟩
      simp [handleEvent, hid, h, hf]
    · refine ⟨{ step with status := "done", activeForm := none }, ?_, ?_⟩
      · simp [handleEvent, hid, h, hf, updateCurrentMessage_steps, mapGet_mapSet]
      · simpa [statusPriority] using
          statusPriority_le_two step.status (by simpa using hf)
  | custom nm v =>
    have hb : (nm == "step_update") = true ∧ (v.stepName == s) = true := by
      simpa [stepUpdateFor, Bool.and_eq_true] using he
    have hn : v.stepName = s := by simpa [beq_iff_eq] using hb.2
    by_cases hg : statusPriority step.status ≤
        statusPriority (if v.status = "in_progress" then "in-progress" else v.status)
    · refine ⟨{ step with
          status := if v.status = "in_progress" then "in-progress" else v.status
          activeForm := if v.activeForm = "" then none else some v.activeForm },
        ?_, hg⟩
      simp [handleEvent, hb.1, hn, h, hg, updateCurrentMessage_steps, mapGet_mapSet]
    · refine ⟨step, ?_, le_refl _⟩
      simp [handleEvent, hb.1, hn, h, hg]

/-- splitNl always yields at least one piece. -/
theorem splitNl_ne_nil (s : List Char) : splitNl s ≠ [] := by
  induction s with
  | nil => simp [splitNl]
  | cons c rest ih =>
    simp only [splitNl]
    by_cases h : c = '\n'
    · simp [h]
    · simp only [h, if_false]
      cases hr : splitNl rest with
      | nil => exact absurd hr ih
      | cons l ls => simp [consHead]

/-- Splitting a newline-free string yields that single piece. -/
theorem splitNl_no_nl (s : List Char) (h : '\n' ∉ s) : splitNl s = [s] := by
  induction s with
  | nil => rfl
  | cons c rest ih =>
    have hc : ¬c = '\n' := fun hc => h (by simp [hc])
    have hr : '\n' ∉ rest := fun hr => h (by simp [hr])
    simp only [splitNl, hc, if_false]
    rw [ih hr]
    rfl

/-- Splitting at the first newline of a string that starts with a
newline-free piece. -/
theorem splitNl_append_nl (a b : List Char) (h : '\n' ∉ a) :
    splitNl (a ++ '\n' :: b) = a :: splitNl b := by
  induction a with
  | nil => simp [splitNl]
  | cons c a2 ih =>
    have hc : ¬c = '\n' := fun hc => h (by simp [hc])
    have ha : '\n' ∉ a2 := fun ha => h (by simp [ha])
    simp only [List.cons_append, splitNl, hc, if_false, List.append_eq]
    rw [ih ha]
    rfl

/-- On a nonempty tail, `lastD` skips the head. -/
theorem lastD_cons_ne {α : Type} (a : α) (l : List α) (d : α) (h : l ≠ []) :
    lastD (a :: l) d = lastD l d := by
  cases l with
  | nil => exact absurd rfl h
  | cons b l2 => rfl

/-- The trailing piece left by splitNl never contains a newline. -/
theorem splitNl_lastD_no_nl (s : List Char) :
    '\n' ∉ lastD (splitNl s) [] := by
  induction s with
  | nil => simp [splitNl, lastD]
  | cons c rest ih =>
    simp only [splitNl]
    by_cases h : c = '\n'
    · simp only [h, if_true]
      rw [lastD_cons_ne _ _ _ (splitNl_ne_nil rest)]
      exact ih
    · simp only [h, if_false]
      cases hr : splitNl rest with
      | nil => exact absurd hr (splitNl_ne_nil rest)
      | cons l ls =>
        rw [hr] at ih
        cases ls with
        | nil =>
          simp only [consHead, lastD] at ih ⊢
          simp only [List.mem_cons, not_or] at ih ⊢
          exact ⟨fun hnc => h hnc.symm, ih⟩
        | cons l2 ls2 =>
          simp only [consHead]
          rw [lastD_cons_ne _ _ _ (by simp)]
          rw [lastD_cons_ne _ _ _ (by simp)] at ih
          exact ih

/-- The read-loop iteration is equivalent to feeding the chunk character by
character: split-and-carry depends only on the concatenated stream. -/
theorem foldl_feedChar_eq (s buf : List Char) (lines : List (List Char))
    (h : '\n' ∉ buf) :
    List.foldl feedChar (lines, buf) s =
      (lines ++ (splitNl (buf ++ s)).dropLast,
        lastD (splitNl (buf ++ s)) []) := by
  induction s generalizing buf lines with
  | nil =>
    simp [splitNl_no_nl buf h, lastD]
  | cons c s2 ih =>
    by_cases hc : c = '\n'
    · subst hc
      rw [List.foldl_cons]
      have hf : feedChar (lines, buf) '\n' = (lines ++ [buf], []) := by
        simp [feedChar]
      rw [hf, ih [] (lines ++ [buf]) (by simp)]
      rw [splitNl_append_nl buf s2 h]
      have hne := splitNl_ne_nil s2
      rw [List.dropLast_cons_of_ne_nil hne,
        lastD_cons_ne _ _ _ hne]
      simp
    · rw [List.foldl_cons]
      have hf : feedChar (lines, buf) c = (lines, buf ++ [c]) := by
        simp [feedChar, hc]
      have hb : '\n' ∉ buf ++ [c] := by
        simp only [List.mem_append, List.mem_singleton]
        rintro (hba | hbc)
        · exact h hba
        · exact hc hbc.symm
      rw [hf, ih (buf ++ [c]) lines hb]
      simp [List.append_assoc]

/-- The source's split-and-pop step equals the character-fold semantics when
the carried buffer is newline-free. -/
theorem chunkStep_eq_foldl (buf chunk : List Char) (lines : List (List Char))
    (h : '\n' ∉ buf) :
    chunkStep (lines, buf) chunk = List.foldl feedChar (lines, buf) chunk := by
  rw [foldl_feedChar_eq chunk buf lines h]
  rfl

/-- Folding the read loop over any chunk sequence equals folding the
character semantics over the concatenated stream. -/
theorem foldl_chunkStep_eq (chunks : List (List Char))
    (lines : List (List Char)) (buf : List Char) (h : '\n' ∉ buf) :
    List.foldl chunkStep (lines, buf) chunks =
      List.foldl feedChar (lines, buf) chunks.flatten := by
  induction chunks generalizing lines buf with
  | nil => simp
  | cons c cs ih =>
    rw [List.flatten_cons, List.foldl_cons,
      chunkStep_eq_foldl buf c lines h, foldl_feedChar_eq c buf lines h,
      ih _ _ (splitNl_lastD_no_nl (buf ++ c)),
      ← foldl_feedChar_eq c buf lines h, ← List.foldl_append]

/-! Injectivity of the id supply: `Nat.repr` never repeats. -/

/-- A decimal digit character evaluates back to its digit. -/
theorem digitChar_val (d : Nat) (h : d < 10) :
    (Nat.digitChar d).toNat - 48 = d := by
  interval_cases d <;> rfl

/-- Appending one digit multiplies the value by ten and adds the digit. -/
theorem decVal_append (ds : List Char) (c : Char) :
    decVal (ds ++ [c]) = 10 * decVal ds + (c.toNat - 48) := by
  unfold decVal
  rw [List.foldl_append]
  rfl

/-- Evaluating the decimal digits of a number recovers the number. -/
theorem decVal_decChars (n : Nat) : decVal (decChars n) = n := by
  induction n using Nat.strong_induction_on with
  | _ n ih =>
    rw [decChars]
    by_cases h : n / 10 = 0
    · simp only [h, dif_pos]
      have hm : n % 10 = n := by omega
      have : decVal [Nat.digitChar (n % 10)] = (Nat.digitChar (n % 10)).toNat - 48 := by
        simp [decVal]
      rw [this, digitChar_val (n % 10) (by omega), hm]
    · simp only [h, dif_neg, not_false_iff]
      rw [decVal_append, ih (n / 10) (by omega),
        digitChar_val (n % 10) (by omega)]
      omega

/-- With enough fuel, the core digit loop computes exactly the structural
decimal digits. -/
theorem toDigitsCore_eq_decChars (fuel : Nat) :
    ∀ (n : Nat) (ds : List Char), n < fuel →
      Nat.toDigitsCore 10 fuel n ds = decChars n ++ ds := by
  induction fuel with
  | zero => intro n ds h; omega
  | succ f ih =>
    intro n ds h
    show (if n / 10 = 0 then Nat.digitChar (n % 10) :: ds
      else Nat.toDigitsCore 10 f (n / 10) (Nat.digitChar (n % 10) :: ds)) =
      decChars n ++ ds
    by_cases h10 : n / 10 = 0
    · rw [if_pos h10, decChars]
      simp [h10]
    · rw [if_neg h10, ih (n / 10) _ (by omega)]
      conv_rhs => rw [decChars]
      simp [h10, List.append_assoc]

/-- Nat.repr computes the structural decimal digits. -/
theorem repr_eq_decChars (n : Nat) : Nat.repr n = (decChars n).asString := by
  show (Nat.toDigitsCore 10 (n + 1) n []).asString = (decChars n).asString
  rw [toDigitsCore_eq_decChars (n + 1) n [] (by omega)]
  simp

/-- Nat.repr is injective: the id supply never repeats. -/
theorem repr_injective (m n : Nat) (h : Nat.repr m = Nat.repr n) : m = n := by
  rw [repr_eq_decChars, repr_eq_decChars] at h
  have hd : decChars m = decChars n := congrArg String.data h
  calc m = decVal (decChars m) := (decVal_decChars m).symm
    _ = decVal (decChars n) := by rw [hd]
    _ = n := decVal_decChars n

/-- Ids generated from distinct counter values are distinct strings. -/
theorem textId_ne (pre : String) (k n : Nat) (h : k ≠ n) :
    pre ++ Nat.repr k ≠ pre ++ Nat.repr n := by
  intro he
  apply h
  apply repr_injective
  apply String.ext
  have hd := congrArg String.data he
  rw [String.data_append, String.data_append] at hd
  exact List.append_cancel_left hd

/-! Ledger lemmas. -/

/-- A ledger with no text blocks flattens to the empty string. -/
theorem noText_flatten (bs : List ContentBlock) (h : noTextBlocks bs = true) :
    flattenText bs = "" := by
  induction bs with
  | nil => rfl
  | cons x xs ih =>
    cases x with
    | text i c => simp [noTextBlocks] at h
    | steps i => exact ih (by simpa [noTextBlocks] using h)
    | tools i => exact ih (by simpa [noTextBlocks] using h)

/-- Appending a block with no text does not change the flattened text. -/
theorem flattenText_append_nontext (bs : List ContentBlock) (b : ContentBlock)
    (hb : noTextBlocks [b] = true) :
    flattenText (bs ++ [b]) = flattenText bs := by
  induction bs with
  | nil =>
    cases b with
    | text i c => simp [noTextBlocks] at hb
    | steps i => rfl
    | tools i => rfl
  | cons x xs ih =>
    cases x with
    | text i c =>
      simp only [List.cons_append, flattenText, List.append_eq]
      rw [ih]
    | steps i =>
      simp only [List.cons_append, flattenText, List.append_eq]
      exact ih
    | tools i =>
      simp only [List.cons_append, flattenText, List.append_eq]
      exact ih

/-- Appending an empty text block does not change the flattened text. -/
theorem flattenText_append_empty_text (bs : List ContentBlock) (i : String) :
    flattenText (bs ++ [.text i ""]) = flattenText bs := by
  induction bs with
  | nil => simp [flattenText]
  | cons x xs ih =>
    cases x with
    | text j c =>
      simp only [List.cons_append, flattenText, List.append_eq]
      rw [ih]
    | steps j =>
      simp only [List.cons_append, flattenText, List.append_eq]
      exact ih
    | tools j =>
      simp only [List.cons_append, flattenText, List.append_eq]
      exact ih

/-- Appending a block with no text keeps a text-free ledger text-free. -/
theorem noText_append_nontext (bs : List ContentBlock) (b : ContentBlock)
    (hb : noTextBlocks [b] = true) :
    noTextBlocks (bs ++ [b]) = noTextBlocks bs := by
  induction bs with
  | nil =>
    cases b with
    | text i c => simp [noTextBlocks] at hb
    | steps i => rfl
    | tools i => rfl
  | cons x xs ih =>
    cases x with
    | text i c => simp [List.cons_append, noTextBlocks]
    | steps i =>
      simp only [List.cons_append, noTextBlocks, List.append_eq]
      exact ih
    | tools i =>
      simp only [List.cons_append, noTextBlocks, List.append_eq]
      exact ih

/-- addDeltaToBlock does not create or destroy text blocks. -/
theorem noText_addDelta (tid d : String) (bs : List ContentBlock) :
    noTextBlocks (addDeltaToBlock tid d bs) = noTextBlocks bs := by
  induction bs with
  | nil => rfl
  | cons x xs ih =>
    cases x with
    | text i c =>
      by_cases hi : (i == tid) = true
      · simp [addDeltaToBlock, hi, noTextBlocks]
      · simp only [addDeltaToBlock, hi]
        simp [noTextBlocks]
    | steps i => simpa [addDeltaToBlock, noTextBlocks] using ih
    | tools i => simpa [addDeltaToBlock, noTextBlocks] using ih

/-- addDeltaToBlock preserves which text block is tracked as last. -/
theorem currentIsLastText_addDelta (tid tid2 d : String)
    (bs : List ContentBlock) :
    currentIsLastText tid (addDeltaToBlock tid2 d bs) =
      currentIsLastText tid bs := by
  induction bs with
  | nil => rfl
  | cons x xs ih =>
    cases x with
    | text i c =>
      by_cases hi : (i == tid2) = true
      · simp [addDeltaToBlock, hi, currentIsLastText]
      · simp only [addDeltaToBlock, hi]
        simp only [Bool.false_eq_true, if_false]
        by_cases ht : (i == tid) = true
        · simp [currentIsLastText, ht, noText_addDelta]
        · simp [currentIsLastText, ht, ih]
    | steps i => simpa [addDeltaToBlock, currentIsLastText] using ih
    | tools i => simpa [addDeltaToBlock, currentIsLastText] using ih

/-- Appending the delta to the tracked last text block appends it to the
flattened text. -/
theorem addDelta_flatten (tid d : String) (bs : List ContentBlock)
    (h : currentIsLastText tid bs = true) :
    flattenText (addDeltaToBlock tid d bs) = flattenText bs ++ d := by
  induction bs with
  | nil => simp [currentIsLastText] at h
  | cons x xs ih =>
    cases x with
    | text i c =>
      by_cases hi : (i == tid) = true
      · have hnt : noTextBlocks xs = true := by
          simpa [currentIsLastText, hi] using h
        have hfx : flattenText xs = "" := noText_flatten xs hnt
        simp only [addDeltaToBlock, hi, if_true, flattenText, hfx]
        rw [String.append_empty, String.append_empty]
      · have h2 : currentIsLastText tid xs = true := by
          simpa [currentIsLastText, hi] using h
        simp only [addDeltaToBlock, hi]
        simp only [Bool.false_eq_true, if_false, flattenText]
        rw [ih h2, String.append_assoc]
    | steps i =>
      have h2 : currentIsLastText tid xs = true := by
        simpa [currentIsLastText] using h
      simp only [addDeltaToBlock, flattenText]
      exact ih h2
    | tools i =>
      have h2 : currentIsLastText tid xs = true := by
        simpa [currentIsLastText] using h
      simp only [addDeltaToBlock, flattenText]
      exact ih h2

/-- The tracked-last-text property survives appending a block with no
text. -/
theorem currentIsLastText_append_nontext (tid : String)
    (bs : List ContentBlock) (b : ContentBlock)
    (hb : noTextBlocks [b] = true) :
    currentIsLastText tid (bs ++ [b]) = currentIsLastText tid bs := by
  induction bs with
  | nil =>
    cases b with
    | text i c => simp [noTextBlocks] at hb
    | steps i => rfl
    | tools i => rfl
  | cons x xs ih =>
    cases x with
    | text i c =>
      by_cases hi : (i == tid) = true
      · simp only [List.cons_append, currentIsLastText, hi, if_true]
        exact noText_append_nontext xs b hb
      · simp only [List.cons_append, currentIsLastText, hi]
        simp only [Bool.false_eq_true, if_false]
        exact ih
    | steps i =>
      simp only [List.cons_append, currentIsLastText]
      exact ih
    | tools i =>
      simp only [List.cons_append, currentIsLastText]
      exact ih

/-- A text block appended with an id unseen in the ledger becomes the
tracked last text block. -/
theorem currentIsLastText_append_fresh (tid s : String)
    (bs : List ContentBlock)
    (h : ∀ i c, ContentBlock.text i c ∈ bs → i ≠ tid) :
    currentIsLastText tid (bs ++ [.text tid s]) = true := by
  induction bs with
  | nil => simp [currentIsLastText, noTextBlocks]
  | cons x xs ih =>
    have hx : ∀ i c, ContentBlock.text i c ∈ xs → i ≠ tid :=
      fun i c hm => h i c (by simp [hm])
    cases x with
    | text i c =>
      have hi : (i == tid) = false := by
        simp only [beq_eq_false_iff_ne]
        exact h i c (by simp)
      simp only [List.cons_append, currentIsLastText, hi]
      simp only [Bool.false_eq_true, if_false]
      exact ih hx
    | steps i =>
      simp only [List.cons_append, currentIsLastText]
      exact ih hx
    | tools i =>
      simp only [List.cons_append, currentIsLastText]
      exact ih hx

/-- Text blocks after addDeltaToBlock existed before, with possibly extended
content. -/
theorem addDelta_mem (tid d : String) (bs : List ContentBlock)
    (i c : String) (h : ContentBlock.text i c ∈ addDeltaToBlock tid d bs) :
    ∃ c0, ContentBlock.text i c0 ∈ bs := by
  induction bs with
  | nil => simp [addDeltaToBlock] at h
  | cons x xs ih =>
    cases x with
    | text j e =>
      by_cases hj : (j == tid) = true
      · simp only [addDeltaToBlock, hj, if_true, List.mem_cons] at h
        rcases h with h | h
        · cases h
          exact ⟨_, List.mem_cons_self _ _⟩
        · exact ⟨c, by simp [h]⟩
      · simp only [addDeltaToBlock, hj] at h
        simp only [Bool.false_eq_true, if_false, List.mem_cons] at h
        rcases h with h | h
        · cases h
          exact ⟨_, List.mem_cons_self _ _⟩
        · obtain ⟨c0, hc0⟩ := ih h
          exact ⟨c0, by simp [hc0]⟩
    | steps j =>
      simp only [addDeltaToBlock, List.mem_cons] at h
      rcases h with h | h
      · cases h
      · obtain ⟨c0, hc0⟩ := ih h
        exact ⟨c0, by simp [hc0]⟩
    | tools j =>
      simp only [addDeltaToBlock, List.mem_cons] at h
      rcases h with h | h
      · cases h
      · obtain ⟨c0, hc0⟩ := ih h
        exact ⟨c0, by simp [hc0]⟩

/-- Freshness bound is monotone in the counter. -/
theorem textIdsBelow_mono (n n2 : Nat) (h : n ≤ n2) (bs : List ContentBlock)
    (hb : textIdsBelow n bs) : textIdsBelow n2 bs := by
  intro i c hm
  obtain ⟨k, hk, he⟩ := hb i c hm
  exact ⟨k, by omega, he⟩

/-- Freshness survives appending a block with no text. -/
theorem textIdsBelow_append_nontext (n : Nat) (bs : List ContentBlock)
    (b : ContentBlock) (hb : noTextBlocks [b] = true)
    (h : textIdsBelow n bs) : textIdsBelow n (bs ++ [b]) := by
  intro i c hm
  rcases List.mem_append.mp hm with hm | hm
  · exact h i c hm
  · cases b with
    | text j e => simp [noTextBlocks] at hb
    | steps j => simp at hm
    | tools j => simp at hm

/-- Appending the next generated text block keeps all ids below the bumped
counter. -/
theorem textIdsBelow_append_text (n : Nat) (bs : List ContentBlock)
    (s : String) (h : textIdsBelow n bs) :
    textIdsBelow (n + 1) (bs ++ [.text ("text-" ++ Nat.repr n) s]) := by
  intro i c hm
  rcases List.mem_append.mp hm with hm | hm
  · obtain ⟨k, hk, he⟩ := h i c hm
    exact ⟨k, by omega, he⟩
  · simp only [List.mem_singleton] at hm
    cases hm
    exact ⟨n, by omega, rfl⟩

/-- Freshness survives appending a delta to a block. -/
theorem textIdsBelow_addDelta (n : Nat) (tid d : String)
    (bs : List ContentBlock) (h : textIdsBelow n bs) :
    textIdsBelow n (addDeltaToBlock tid d bs) := by
  intro i c hm
  obtain ⟨c0, hc0⟩ := addDelta_mem tid d bs i c hm
  exact h i c0 hc0

/-- No ledger id equals the id about to be generated. -/
theorem textIdsBelow_fresh_ne (n : Nat) (bs : List ContentBlock)
    (h : textIdsBelow n bs) :
    ∀ i c, ContentBlock.text i c ∈ bs → i ≠ "text-" ++ Nat.repr n := by
  intro i c hm
  obtain ⟨k, hk, he⟩ := h i c hm
  rw [he]
  exact textId_ne "text-" k n (by omega)

/-- updateCurrentMessage with no current message is the identity. -/
theorem updateCurrentMessage_none (f : ChatMessage → ChatMessage)
    (st : HookState) (h : st.currentMessage = none) :
    updateCurrentMessage f st = st := by
  unfold updateCurrentMessage
  rw [h]

/-- updateCurrentMessage publishes the updated current message. -/
theorem updateCurrentMessage_some (f : ChatMessage → ChatMessage)
    (st : HookState) (m : ChatMessage) (h : st.currentMessage = some m) :
    (updateCurrentMessage f st).currentMessage = some (f m) := by
  unfold updateCurrentMessage
  rw [h]

/-- updateCurrentMessage leaves the text-block pointer unchanged. -/
theorem updateCurrentMessage_currentTextBlockId (f : ChatMessage → ChatMessage)
    (st : HookState) :
    (updateCurrentMessage f st).currentTextBlockId = st.currentTextBlockId := by
  unfold updateCurrentMessage
  cases st.currentMessage <;> rfl

/-- updateCurrentMessage leaves the id counter unchanged. -/
theorem updateCurrentMessage_nextId (f : ChatMessage → ChatMessage)
    (st : HookState) : (updateCurrentMessage f st).nextId = st.nextId := by
  unfold updateCurrentMessage
  cases st.currentMessage <;> rfl

/-- A member of a replaced list is an original member or the replacement. -/
theorem mem_replaceById_sub (id : String) (m : ChatMessage)
    (l : List ChatMessage) (x : ChatMessage) (h : x ∈ replaceById id m l) :
    x ∈ l ∨ x = m := by
  induction l with
  | nil => simp [replaceById] at h
  | cons y ys ih =>
    by_cases hy : (y.id == id) = true
    · simp only [replaceById, hy, if_true, List.mem_cons] at h
      rcases h with h | h
      · exact Or.inr h
      · exact Or.inl (by simp [h])
    · simp only [replaceById, hy] at h
      simp only [Bool.false_eq_true, if_false, List.mem_cons] at h
      rcases h with h | h
      · exact Or.inl (by simp [h])
      · rcases ih h with h2 | h2
        · exact Or.inl (by simp [h2])
        · exact Or.inr h2

/-- A pointwise property of the message list survives updateCurrentMessage
when the updated message satisfies it. -/
theorem updateCurrentMessage_msgs (P : ChatMessage → Prop)
    (f : ChatMessage → ChatMessage) (st : HookState) (m : ChatMessage)
    (hm : st.currentMessage = some m)
    (hall : ∀ x ∈ st.messages, P x) (hf : P (f m)) :
    ∀ x ∈ (updateCurrentMessage f st).messages, P x := by
  unfold updateCurrentMessage
  rw [hm]
  intro x hx
  simp only at hx
  by_cases ha : st.messages.any (fun y => y.id == (f m).id) = true
  · rw [if_pos ha] at hx
    rcases mem_replaceById_sub _ _ _ _ hx with h | h
    · exact hall x h
    · rw [h]
      exact hf
  · rw [if_neg ha] at hx
    rcases List.mem_append.mp hx with h | h
    · exact hall x h
    · simp only [List.mem_singleton] at h
      rw [h]
      exact hf

/-- TextInv transfers to a state with the same messages, current message,
pointer and counter, and a flatten-equivalent ledger. -/
theorem textInv_of_parts (st st2 : HookState) (hI : TextInv st)
    (h1 : st2.messages = st.messages)
    (h2 : st2.currentMessage = st.currentMessage)
    (h3 : st2.currentTextBlockId = st.currentTextBlockId)
    (h4 : st2.nextId = st.nextId)
    (h5 : flattenText st2.contentBlocks = flattenText st.contentBlocks)
    (h6 : ∀ tid, currentIsLastText tid st2.contentBlocks =
      currentIsLastText tid st.contentBlocks)
    (h7 : textIdsBelow st.nextId st2.contentBlocks) : TextInv st2 := by
  refine ⟨?_, ?_, ?_, ?_, ?_⟩
  · rw [h1]
    exact hI.msgs
  · intro m hm
    rw [h2] at hm
    rw [h5]
    exact hI.curContent m hm
  · intro m hm
    rw [h2] at hm
    exact hI.curSynced m hm
  · intro tid htid
    rw [h3] at htid
    rw [h6]
    exact hI.ptr tid htid
  · rw [h4]
    exact h7

/-- TextInv is preserved by updateCurrentMessage when the update keeps the
message content in sync with the ledger. -/
theorem textInv_update (st : HookState) (f : ChatMessage → ChatMessage)
    (hI : TextInv st)
    (hcontent : ∀ m, st.currentMessage = some m →
      (f m).content = flattenText st.contentBlocks)
    (hsync : ∀ m, st.currentMessage = some m →
      (f m).content = flattenText (f m).contentBlocks) :
    TextInv (updateCurrentMessage f st) := by
  cases hc : st.currentMessage with
  | none =>
    rw [updateCurrentMessage_none f st hc]
    exact hI
  | some m =>
    refine ⟨?_, ?_, ?_, ?_, ?_⟩
    · exact updateCurrentMessage_msgs
        (fun x => x.content = flattenText x.contentBlocks)
        f st m hc hI.msgs (hsync m hc)
    · intro m2 hm2
      rw [updateCurrentMessage_some f st m hc] at hm2
      cases hm2
      rw [updateCurrentMessage_contentBlocks]
      exact hcontent m hc
    · intro m2 hm2
      rw [updateCurrentMessage_some f st m hc] at hm2
      cases hm2
      exact hsync m hc
    · intro tid htid
      rw [updateCurrentMessage_currentTextBlockId] at htid
      rw [updateCurrentMessage_contentBlocks]
      exact hI.ptr tid htid
    · rw [updateCurrentMessage_nextId, updateCurrentMessage_contentBlocks]
      exact hI.fresh

/-- TextInv is preserved by an update that does not change the content and
either leaves the message ledger snapshot alone or refreshes it from the
state ledger. -/
theorem textInv_update_simple (st : HookState) (f : ChatMessage → ChatMessage)
    (hI : TextInv st)
    (hc : ∀ m, (f m).content = m.content)
    (hb : ∀ m, (f m).contentBlocks = m.contentBlocks ∨
      (f m).contentBlocks = st.contentBlocks) :
    TextInv (updateCurrentMessage f st) := by
  refine textInv_update st f hI ?_ ?_
  · intro m hm
    rw [hc]
    exact hI.curContent m hm
  · intro m hm
    rcases hb m with h | h
    · rw [hc, h]
      exact hI.curSynced m hm
    · rw [hc, h]
      exact hI.curContent m hm

/-- ensureAssistantMessage preserves TextInv. -/
theorem textInv_ensure (st : HookState) (hI : TextInv st) :
    TextInv (ensureAssistantMessage st) := by
  cases hc : st.currentMessage with
  | some m =>
    rw [ensure_of_some st m hc]
    exact hI
  | none =>
    unfold ensureAssistantMessage
    rw [hc]
    refine ⟨?_, ?_, ?_, ?_, ?_⟩
    · intro x hx
      rcases List.mem_append.mp hx with h | h
      · exact hI.msgs x h
      · simp only [List.mem_singleton] at h
        rw [h]
        rfl
    · intro m hm
      cases hm
      rfl
    · intro m hm
      cases hm
      rfl
    · intro tid htid
      exact Option.noConfusion htid
    · intro i c hm
      simp at hm

/-- One reducer step preserves TextInv, provided any text delta arrives
inside an open text segment. -/
theorem textInv_preserved (st : HookState) (e : AgUiEvent) (hI : TextInv st)
    (hguard : ∀ mid d, e = .textMessageContent mid d → textDeltaOk st = true) :
    TextInv (handleEvent st e) := by
  cases e with
  | runStarted r =>
    exact ⟨hI.msgs, hI.curContent, hI.curSynced, hI.ptr, hI.fresh⟩
  | textMessageEnd mid =>
    exact ⟨hI.msgs, hI.curContent, hI.curSynced,
      fun tid htid => Option.noConfusion htid, hI.fresh⟩
  | toolCallArgs tid d =>
    cases hg : mapGet st.toolCalls tid with
    | none =>
      simp only [handleEvent, hg]
      exact hI
    | some tc =>
      simp only [handleEvent, hg]
      refine textInv_update_simple _ _ ?_ (fun m => rfl) (fun m => Or.inl rfl)
      exact textInv_of_parts st _ hI rfl rfl rfl rfl rfl (fun _ => rfl) hI.fresh
  | toolCallEnd tid =>
    cases hg : mapGet st.toolCalls tid with
    | none =>
      simp only [handleEvent, hg]
      exact hI
    | some tc =>
      simp only [handleEvent, hg]
      refine textInv_update_simple _ _ ?_ (fun m => rfl) (fun m => Or.inl rfl)
      exact textInv_of_parts st _ hI rfl rfl rfl rfl rfl (fun _ => rfl) hI.fresh
  | toolCallResult tid c =>
    cases hg : mapGet st.toolCalls tid with
    | none =>
      simp only [handleEvent, hg]
      exact hI
    | some tc =>
      simp only [handleEvent, hg]
      refine textInv_update_simple _ _ ?_ (fun m => rfl) (fun m => Or.inl rfl)
      exact textInv_of_parts st _ hI rfl rfl rfl rfl rfl (fun _ => rfl) hI.fresh
  | stepFinished n i =>
    cases hg : mapGet st.steps (resolveStepId i n) with
    | none =>
      simp only [handleEvent, hg]
      exact hI
    | some step =>
      simp only [handleEvent, hg]
      split
      · exact hI
      · refine textInv_update_simple _ _ ?_ (fun m => rfl) (fun m => Or.inl rfl)
        exact textInv_of_parts st _ hI rfl rfl rfl rfl rfl (fun _ => rfl) hI.fresh
  | runFinished r =>
    have hI2 := textInv_update_simple st
      (fun m => { m with isStreaming := false }) hI
      (fun m => rfl) (fun m => Or.inl rfl)
    exact ⟨hI2.msgs,
      fun m hm => Option.noConfusion hm,
      fun m hm => Option.noConfusion hm,
      fun tid htid => Option.noConfusion htid,
      fun i c hm => absurd hm (List.not_mem_nil _)⟩
  | runError msg =>
    have hI1 := textInv_ensure st hI
    have hI2 := textInv_update_simple (ensureAssistantMessage st)
      (fun m => { m with isStreaming := false, error := some ⟨"Error", msg⟩ }) hI1
      (fun m => rfl) (fun m => Or.inl rfl)
    exact ⟨hI2.msgs,
      fun m hm => Option.noConfusion hm,
      fun m hm => Option.noConfusion hm,
      fun tid htid => Option.noConfusion htid,
      fun i c hm => absurd hm (List.not_mem_nil _)⟩
  | toolCallStart tid tname =>
    have hI1 := textInv_ensure st hI
    simp only [handleEvent]
    split
    · refine textInv_update_simple _ _ ?_ (fun m => rfl) (fun m => Or.inr rfl)
      exact textInv_of_parts _ _ hI1 rfl rfl rfl rfl rfl (fun _ => rfl) hI1.fresh
    · refine textInv_update_simple _ _ ?_ (fun m => rfl) (fun m => Or.inr rfl)
      exact textInv_of_parts _ _ hI1 rfl rfl rfl rfl
        (flattenText_append_nontext _ _ rfl)
        (fun t2 => currentIsLastText_append_nontext t2 _ _ rfl)
        (textIdsBelow_append_nontext _ _ _ rfl hI1.fresh)
  | stepStarted n i =>
    have hI1 := textInv_ensure st hI
    by_cases hb : (ensureAssistantMessage st).hasStepsBlock = true
    · simp only [handleEvent, hb, eq_self_iff_true, if_true]
      split
      · exact hI1
      · refine textInv_update_simple _ _ ?_ (fun m => rfl) (fun m => Or.inr rfl)
        exact textInv_of_parts _ _ hI1 rfl rfl rfl rfl rfl (fun _ => rfl) hI1.fresh
    · simp only [handleEvent, hb, Bool.false_eq_true, if_false]
      split
      · exact textInv_of_parts _ _ hI1 rfl rfl rfl rfl
          (flattenText_append_nontext _ _ rfl)
          (fun t2 => currentIsLastText_append_nontext t2 _ _ rfl)
          (textIdsBelow_append_nontext _ _ _ rfl hI1.fresh)
      · refine textInv_update_simple _ _ ?_ (fun m => rfl) (fun m => Or.inr rfl)
        exact textInv_of_parts _ _ hI1 rfl rfl rfl rfl
          (flattenText_append_nontext _ _ rfl)
          (fun t2 => currentIsLastText_append_nontext t2 _ _ rfl)
          (textIdsBelow_append_nontext _ _ _ rfl hI1.fresh)
  | textMessageStart mid =>
    have hI1 := textInv_ensure st hI
    simp only [handleEvent]
    refine textInv_update_simple _ _ ?_ (fun m => rfl) (fun m => Or.inr rfl)
    refine ⟨?_, ?_, ?_, ?_, ?_⟩
    · exact hI1.msgs
    · intro m hm
      show m.content = flattenText ((ensureAssistantMessage st).contentBlocks ++
        [.text ("text-" ++ Nat.repr (ensureAssistantMessage st).nextId) ""])
      rw [flattenText_append_empty_text]
      exact hI1.curContent m hm
    · intro m hm
      exact hI1.curSynced m hm
    · intro tid2 htid
      cases htid
      exact currentIsLastText_append_fresh _ _ _
        (textIdsBelow_fresh_ne _ _ hI1.fresh)
    · exact textIdsBelow_append_text _ _ _ hI1.fresh
  | textMessageContent mid d =>
    have hg : textDeltaOk st = true := hguard mid d rfl
    obtain ⟨m0, hm0⟩ : ∃ m, st.currentMessage = some m := by
      unfold textDeltaOk at hg
      cases hc : st.currentMessage with
      | none => rw [hc] at hg; simp at hg
      | some m => exact ⟨m, rfl⟩
    obtain ⟨tid0, htid0⟩ : ∃ t, st.currentTextBlockId = some t := by
      unfold textDeltaOk at hg
      cases hc : st.currentTextBlockId with
      | none => rw [hc] at hg; simp at hg
      | some t => exact ⟨t, rfl⟩
    have hlast : currentIsLastText tid0 st.contentBlocks = true := hI.ptr tid0 htid0
    have key : m0.content ++ d = flattenText (addDeltaToBlock tid0 d st.contentBlocks) := by
      rw [addDelta_flatten tid0 d st.contentBlocks hlast, hI.curContent m0 hm0]
    simp only [handleEvent, ensure_of_some st m0 hm0, htid0, hm0]
    refine ⟨?_, ?_, ?_, ?_, ?_⟩
    · exact updateCurrentMessage_msgs
        (fun x => x.content = flattenText x.contentBlocks) _ _ m0 rfl hI.msgs key
    · intro m2 hm2
      have hm2b : some ({ m0 with content := m0.content ++ d, contentBlocks := addDeltaToBlock tid0 d st.contentBlocks } : ChatMessage) = some m2 := hm2
      cases hm2b
      exact key
    · intro m2 hm2
      have hm2b : some ({ m0 with content := m0.content ++ d, contentBlocks := addDeltaToBlock tid0 d st.contentBlocks } : ChatMessage) = some m2 := hm2
      cases hm2b
      exact key
    · intro tid2 htid2
      have ht2 : some tid0 = some tid2 := htid2
      cases ht2
      show currentIsLastText tid0 (addDeltaToBlock tid0 d st.contentBlocks) = true
      rw [currentIsLastText_addDelta]
      exact hlast
    · show textIdsBelow st.nextId (addDeltaToBlock tid0 d st.contentBlocks)
      exact textIdsBelow_addDelta _ _ _ _ hI.fresh
  | custom nm v =>
    simp only [handleEvent]
    split
    · cases hg : mapGet st.steps v.stepName with
      | some step =>
        simp only [hg]
        split <;> split
        · refine textInv_update_simple _ _ ?_ (fun m => rfl) (fun m => Or.inr rfl)
          exact textInv_of_parts st _ hI rfl rfl rfl rfl rfl (fun _ => rfl) hI.fresh
        · exact hI
        · refine textInv_update_simple _ _ ?_ (fun m => rfl) (fun m => Or.inr rfl)
          exact textInv_of_parts st _ hI rfl rfl rfl rfl rfl (fun _ => rfl) hI.fresh
        · exact hI
      | none =>
        simp only [hg]
        have hI1 := textInv_ensure st hI
        by_cases hb : (ensureAssistantMessage st).hasStepsBlock = true
        · simp only [hb, eq_self_iff_true, if_true]
          split <;> split
          · refine textInv_update_simple _ _ ?_ (fun m => rfl) (fun m => Or.inr rfl)
            exact textInv_of_parts _ _ hI1 rfl rfl rfl rfl rfl (fun _ => rfl) hI1.fresh
          · exact textInv_of_parts _ _ hI1 rfl rfl rfl rfl rfl (fun _ => rfl) hI1.fresh
          · refine textInv_update_simple _ _ ?_ (fun m => rfl) (fun m => Or.inr rfl)
            exact textInv_of_parts _ _ hI1 rfl rfl rfl rfl rfl (fun _ => rfl) hI1.fresh
          · exact textInv_of_parts _ _ hI1 rfl rfl rfl rfl rfl (fun _ => rfl) hI1.fresh
        · simp only [hb, Bool.false_eq_true, if_false]
          split <;> split
          · refine textInv_update_simple _ _ ?_ (fun m => rfl) (fun m => Or.inr rfl)
            exact textInv_of_parts _ _ hI1 rfl rfl rfl rfl
              (flattenText_append_nontext _ _ rfl)
              (fun t2 => currentIsLastText_append_nontext t2 _ _ rfl)
              (textIdsBelow_append_nontext _ _ _ rfl hI1.fresh)
          · exact textInv_of_parts _ _ hI1 rfl rfl rfl rfl
              (flattenText_append_nontext _ _ rfl)
              (fun t2 => currentIsLastText_append_nontext t2 _ _ rfl)
              (textIdsBelow_append_nontext _ _ _ rfl hI1.fresh)
          · refine textInv_update_simple _ _ ?_ (fun m => rfl) (fun m => Or.inr rfl)
            exact textInv_of_parts _ _ hI1 rfl rfl rfl rfl
              (flattenText_append_nontext _ _ rfl)
              (fun t2 => currentIsLastText_append_nontext t2 _ _ rfl)
              (textIdsBelow_append_nontext _ _ _ rfl hI1.fresh)
          · exact textInv_of_parts _ _ hI1 rfl rfl rfl rfl
              (flattenText_append_nontext _ _ rfl)
              (fun t2 => currentIsLastText_append_nontext t2 _ _ rfl)
              (textIdsBelow_append_nontext _ _ _ rfl hI1.fresh)
    · exact hI

/-- TextInv holds along any valid event sequence. -/
theorem textInv_processEvents (st : HookState) (evs : List AgUiEvent)
    (hI : TextInv st) (hv : validSeq st evs = true) :
    TextInv (processEvents st evs) := by
  induction evs generalizing st with
  | nil => simpa [processEvents] using hI
  | cons e es ih =>
    simp only [validSeq, Bool.and_eq_true] at hv
    have hg : ∀ mid d, e = .textMessageContent mid d → textDeltaOk st = true := by
      intro mid d he
      subst he
      simpa using hv.1
    exact ih (handleEvent st e) (textInv_preserved st e hI hg) hv.2

/-- The initial state satisfies TextInv. -/
theorem textInv_init : TextInv initState :=
  ⟨fun x hx => absurd hx (List.not_mem_nil _),
    fun m hm => Option.noConfusion hm,
    fun m hm => Option.noConfusion hm,
    fun tid h => Option.noConfusion h,
    fun i c h => absurd h (List.not_mem_nil _)⟩

/-- updateCurrentMessage leaves the steps-marker flag unchanged. -/
theorem updateCurrentMessage_hasStepsBlock (f : ChatMessage → ChatMessage)
    (st : HookState) :
    (updateCurrentMessage f st).hasStepsBlock = st.hasStepsBlock := by
  unfold updateCurrentMessage
  cases st.currentMessage <;> rfl

/-- updateCurrentMessage never clears the current message. -/
theorem updateCurrentMessage_ne_none (f : ChatMessage → ChatMessage)
    (st : HookState) (hX : st.currentMessage ≠ none) :
    (updateCurrentMessage f st).currentMessage ≠ none := by
  unfold updateCurrentMessage
  cases h : st.currentMessage with
  | none => exact absurd h hX
  | some m => simp

/-- RunInv survives updateCurrentMessage on a message-bearing state. -/
theorem runInv_update (X : HookState) (f : ChatMessage → ChatMessage)
    (hX : X.currentMessage ≠ none)
    (h2X : X.steps ≠ [] → X.hasStepsBlock = true) :
    RunInv (updateCurrentMessage f X) := by
  constructor
  · intro hc
    exact absurd hc (updateCurrentMessage_ne_none f X hX)
  · intro hs
    rw [updateCurrentMessage_steps] at hs
    rw [updateCurrentMessage_hasStepsBlock]
    exact h2X hs

/-- Every reducer step preserves the run well-formedness invariant. -/
theorem runInv_preserved (st : HookState) (e : AgUiEvent) (h : RunInv st) :
    RunInv (handleEvent st e) := by
  obtain ⟨h1, h2⟩ := h
  cases e with
  | runStarted r => exact ⟨h1, h2⟩
  | textMessageEnd mid =>
    refine ⟨fun hc => ?_, h2⟩
    obtain ⟨a, b, c2, d2, e2, f2⟩ := h1 hc
    exact ⟨a, b, c2, rfl, e2, f2⟩
  | runFinished r =>
    exact ⟨fun hc => ⟨rfl, rfl, rfl, rfl, rfl, rfl⟩, fun hs => absurd rfl hs⟩
  | runError msg =>
    exact ⟨fun hc => ⟨rfl, rfl, rfl, rfl, rfl, rfl⟩, fun hs => absurd rfl hs⟩
  | textMessageStart mid =>
    cases hcm : st.currentMessage with
    | some m0 =>
      have hnone : st.currentMessage ≠ none := by simp [hcm]
      simp only [handleEvent, ensure_of_some st m0 hcm]
      refine runInv_update _ _ ?_ ?_
      · exact hnone
      · exact h2
    | none =>
      simp only [handleEvent]
      unfold ensureAssistantMessage
      rw [hcm]
      refine runInv_update _ _ ?_ ?_
      · intro h0
        exact Option.noConfusion h0
      · intro hs
        exact absurd rfl hs
  | textMessageContent mid d =>
    cases hcm : st.currentMessage with
    | some m0 =>
      have hnone : st.currentMessage ≠ none := by simp [hcm]
      simp only [handleEvent, ensure_of_some st m0 hcm]
      refine runInv_update _ _ ?_ ?_
      · exact hnone
      · exact h2
    | none =>
      simp only [handleEvent]
      unfold ensureAssistantMessage
      rw [hcm]
      refine runInv_update _ _ ?_ ?_
      · intro h0
        exact Option.noConfusion h0
      · intro hs
        exact absurd rfl hs
  | toolCallStart tid tname =>
    cases hcm : st.currentMessage with
    | some m0 =>
      have hnone : st.currentMessage ≠ none := by simp [hcm]
      simp only [handleEvent, ensure_of_some st m0 hcm]
      split
      · refine runInv_update _ _ ?_ ?_
        · exact hnone
        · exact h2
      · refine runInv_update _ _ ?_ ?_
        · exact hnone
        · exact h2
    | none =>
      simp only [handleEvent]
      unfold ensureAssistantMessage
      rw [hcm]
      refine runInv_update _ _ ?_ ?_
      · intro h0
        exact Option.noConfusion h0
      · intro hs
        exact absurd rfl hs
  | toolCallArgs tid d =>
    cases hg : mapGet st.toolCalls tid with
    | none =>
      simp only [handleEvent, hg]
      exact ⟨h1, h2⟩
    | some tc =>
      cases hcm : st.currentMessage with
      | none =>
        obtain ⟨_, htc, _, _, _, _⟩ := h1 hcm
        rw [htc] at hg
        simp [mapGet] at hg
      | some m0 =>
        have hnone : st.currentMessage ≠ none := by simp [hcm]
        simp only [handleEvent, hg]
        refine runInv_update _ _ ?_ ?_
        · exact hnone
        · exact h2
  | toolCallEnd tid =>
    cases hg : mapGet st.toolCalls tid with
    | none =>
      simp only [handleEvent, hg]
      exact ⟨h1, h2⟩
    | some tc =>
      cases hcm : st.currentMessage with
      | none =>
        obtain ⟨_, htc, _, _, _, _⟩ := h1 hcm
        rw [htc] at hg
        simp [mapGet] at hg
      | some m0 =>
        have hnone : st.currentMessage ≠ none := by simp [hcm]
        simp only [handleEvent, hg]
        refine runInv_update _ _ ?_ ?_
        · exact hnone
        · exact h2
  | toolCallResult tid c =>
    cases hg : mapGet st.toolCalls tid with
    | none =>
      simp only [handleEvent, hg]
      exact ⟨h1, h2⟩
    | some tc =>
      cases hcm : st.currentMessage with
      | none =>
        obtain ⟨_, htc, _, _, _, _⟩ := h1 hcm
        rw [htc] at hg
        simp [mapGet] at hg
      | some m0 =>
        have hnone : st.currentMessage ≠ none := by simp [hcm]
        simp only [handleEvent, hg]
        refine runInv_update _ _ ?_ ?_
        · exact hnone
        · exact h2
  | stepFinished n i =>
    cases hg : mapGet st.steps (resolveStepId i n) with
    | none =>
      simp only [handleEvent, hg]
      exact ⟨h1, h2⟩
    | some step =>
      cases hcm : st.currentMessage with
      | none =>
        obtain ⟨hsteps, _, _, _, _, _⟩ := h1 hcm
        rw [hsteps] at hg
        simp [mapGet] at hg
      | some m0 =>
        have hnone : st.currentMessage ≠ none := by simp [hcm]
        simp only [handleEvent, hg]
        split
        · exact ⟨h1, h2⟩
        · refine runInv_update _ _ ?_ ?_
          · exact hnone
          · intro hs
            exact h2 (mapGet_ne_nil hg)
  | stepStarted n i =>
    cases hcm : st.currentMessage with
    | some m0 =>
      have hnone : st.currentMessage ≠ none := by simp [hcm]
      simp only [handleEvent, ensure_of_some st m0 hcm]
      by_cases hb : st.hasStepsBlock = true
      · simp only [hb, eq_self_iff_true, if_true]
        split
        · exact ⟨h1, h2⟩
        · refine runInv_update _ _ ?_ ?_
          · exact hnone
          · intro hs
            rfl
      · simp only [hb, Bool.false_eq_true, if_false]
        split
        · exact ⟨fun hc => absurd hc hnone, fun hs => rfl⟩
        · refine runInv_update _ _ ?_ ?_
          · exact hnone
          · intro hs
            rfl
    | none =>
      simp only [handleEvent]
      unfold ensureAssistantMessage
      rw [hcm]
      repeat' split
      all_goals first
        | exact ⟨fun hc => Option.noConfusion hc, fun hs => absurd rfl hs⟩
        | exact ⟨fun hc => Option.noConfusion hc, fun hs => rfl⟩
        | (refine runInv_update _ _ ?_ ?_
           · intro h0
             exact Option.noConfusion h0
           · intro hs
             rfl)
        | simp_all
  | custom nm v =>
    simp only [handleEvent]
    split
    · cases hg : mapGet st.steps v.stepName with
      | some step =>
        cases hcm : st.currentMessage with
        | none =>
          obtain ⟨hsteps, _, _, _, _, _⟩ := h1 hcm
          rw [hsteps] at hg
          simp [mapGet] at hg
        | some m0 =>
          have hnone : st.currentMessage ≠ none := by simp [hcm]
          simp only [hg]
          repeat' split
          all_goals first
            | exact ⟨h1, h2⟩
            | (refine runInv_update _ _ ?_ ?_
               · first
                 | exact hnone
                 | (intro h0
                    exact Option.noConfusion h0)
               · intro hs
                 exact h2 (mapGet_ne_nil hg))
      | none =>
        cases hcm : st.currentMessage with
        | some m0 =>
          have hnone : st.currentMessage ≠ none := by simp [hcm]
          simp only [hg, ensure_of_some st m0 hcm]
          by_cases hb : st.hasStepsBlock = true
          · simp only [hb, eq_self_iff_true, if_true]
            repeat' split
            all_goals first
              | exact ⟨fun hc => absurd hc hnone, fun hs => rfl⟩
              | (refine runInv_update _ _ ?_ ?_
                 · exact hnone
                 · intro hs
                   rfl)
              | simp_all
          · simp only [hb, Bool.false_eq_true, if_false]
            repeat' split
            all_goals first
              | exact ⟨fun hc => absurd hc hnone, fun hs => rfl⟩
              | (refine runInv_update _ _ ?_ ?_
                 · exact hnone
                 · intro hs
                   rfl)
              | simp_all
        | none =>
          simp only [hg]
          unfold ensureAssistantMessage
          rw [hcm]
          repeat' split
          all_goals first
            | exact ⟨fun hc => Option.noConfusion hc, fun hs => absurd rfl hs⟩
            | exact ⟨fun hc => Option.noConfusion hc, fun hs => rfl⟩
            | (refine runInv_update _ _ ?_ ?_
               · intro h0
                 exact Option.noConfusion h0
               · intro hs
                 rfl)
            | simp_all
    · exact ⟨h1, h2⟩

/-- The initial state is run well-formed. -/
theorem runInv_init : RunInv initState :=
  ⟨fun hc => ⟨rfl, rfl, rfl, rfl, rfl, rfl⟩, fun hs => absurd rfl hs⟩

/-- Run well-formedness holds in every reachable state. -/
theorem runInv_processEvents (st : HookState) (evs : List AgUiEvent)
    (h : RunInv st) : RunInv (processEvents st evs) := by
  induction evs generalizing st with
  | nil => simpa [processEvents] using h
  | cons e es ih => exact ih (handleEvent st e) (runInv_preserved st e h)

/-! Claim theorems. -/

/-- C5: decoding a byte stream split arbitrarily into read chunks — mid-line
splits included — yields exactly the same parsed event sequence as decoding
the whole stream as one single chunk, for any payload parser. -/
theorem decode_chunk_split_invariant
    (parseEvent : List Char → Option AgUiEvent)
    (chunks : List (List Char)) :
    decode parseEvent chunks = decode parseEvent [chunks.flatten] := by
  unfold decode decodeLines
  rw [foldl_chunkStep_eq chunks [] [] (by simp),
    foldl_chunkStep_eq [chunks.flatten] [] [] (by simp)]
  simp

/-- C8: a data line whose payload the parser rejects, sitting anywhere
between other lines, contributes no event: the decoded event sequence — and
hence the state after processing it — is the same as for the stream without
the malformed line. -/
theorem malformed_line_dropped (parseEvent : List Char → Option AgUiEvent)
    (u v : List (List Char)) (payload : List Char)
    (hd : payload ≠ "[DONE]".data) (hp : parseEvent payload = none) :
    eventsOfLines parseEvent
        (u ++ ['d' :: 'a' :: 't' :: 'a' :: ':' :: ' ' :: payload] ++ v) =
      eventsOfLines parseEvent (u ++ v) ∧
    processEvents initState
        (eventsOfLines parseEvent
          (u ++ ['d' :: 'a' :: 't' :: 'a' :: ':' :: ' ' :: payload] ++ v)) =
      processEvents initState (eventsOfLines parseEvent (u ++ v)) := by
  have h1 : eventsOfLines parseEvent
      (u ++ ['d' :: 'a' :: 't' :: 'a' :: ':' :: ' ' :: payload] ++ v) =
      eventsOfLines parseEvent (u ++ v) := by
    simp [eventsOfLines, lineEvents, lineData, hd, hp]
  exact ⟨h1, by rw [h1]⟩

/-- Witness for C8: with a parser that rejects the single-character payload
x, inserting the malformed data line changes nothing. -/
theorem malformed_line_dropped_witness :
    (['x'] : List Char) ≠ "[DONE]".data ∧
    (eventsOfLines (fun _ => none)
        ([] ++ ['d' :: 'a' :: 't' :: 'a' :: ':' :: ' ' :: ['x']] ++ []) =
      eventsOfLines (fun _ => none) ([] ++ []) ∧
    processEvents initState
        (eventsOfLines (fun _ => none)
          ([] ++ ['d' :: 'a' :: 't' :: 'a' :: ':' :: ' ' :: ['x']] ++ [])) =
      processEvents initState (eventsOfLines (fun _ => none) ([] ++ []))) :=
  ⟨by decide, malformed_line_dropped (fun _ => none) [] [] ['x'] (by decide) rfl⟩

/-- C3: over any sequence of step-status updates for one step (step-finish
events and custom step_update events naming it, in any order), the step's
status priority under pending 0, in-progress 1, done 2, failed 3 never
decreases: a lower-priority update is never applied. -/
theorem step_status_monotone (st : HookState) (evs : List AgUiEvent)
    (s : String) (hall : ∀ e ∈ evs, stepUpdateFor s e = true)
    (step step2 : Step) (h1 : mapGet st.steps s = some step)
    (h2 : mapGet (processEvents st evs).steps s = some step2) :
    statusPriority step.status ≤ statusPriority step2.status := by
  induction evs generalizing st step with
  | nil =>
    simp only [processEvents, List.foldl] at h2
    rw [h1] at h2
    cases h2
    exact le_refl _
  | cons e es ih =>
    obtain ⟨stepm, hm, hle⟩ :=
      handleEvent_step_mono st e s (hall e (by simp)) step h1
    have h2e : mapGet (processEvents (handleEvent st e) es).steps s = some step2 := by
      simpa [processEvents, List.foldl] using h2
    exact le_trans hle
      (ih (handleEvent st e) (fun e2 he2 => hall e2 (by simp [he2])) stepm hm h2e)

/-- Witness for C3: a pending step receives a finish and then a late
lower-priority in_progress update; the final status is still done and the
priority never decreased. -/
theorem step_status_monotone_witness :
    (∀ e ∈ ([.stepFinished "s1" none,
             .custom "step_update"
               { stepName := "s1", status := "in_progress",
                 activeForm := "working" }] : List AgUiEvent),
        stepUpdateFor "s1" e = true) ∧
    mapGet (processEvents initState [.stepStarted "s1" none]).steps "s1" =
      some { id := "s1", name := "s1", status := "pending", activeForm := none } ∧
    mapGet (processEvents (processEvents initState [.stepStarted "s1" none])
        [.stepFinished "s1" none,
         .custom "step_update"
           { stepName := "s1", status := "in_progress",
             activeForm := "working" }]).steps "s1" =
      some { id := "s1", name := "s1", status := "done", activeForm := none } ∧
    statusPriority "pending" ≤ statusPriority "done" :=
  ⟨by decide, by decide, by decide,
    step_status_monotone (processEvents initState [.stepStarted "s1" none])
      [.stepFinished "s1" none,
       .custom "step_update"
         { stepName := "s1", status := "in_progress", activeForm := "working" }]
      "s1" (by decide)
      { id := "s1", name := "s1", status := "pending", activeForm := none }
      { id := "s1", name := "s1", status := "done", activeForm := none }
      (by decide) (by decide)⟩

/-- C2: applying text-start, text-delta A, step-start, text-start,
text-delta B, tool-call-start to a fresh run produces a ledger of exactly
four entries in the order Text, StepGroup, Text, ToolGroup, with no merging
and no reordering. -/
theorem ledger_order_fidelity :
    (processEvents initState
      [.textMessageStart "m1", .textMessageContent "m1" "A",
       .stepStarted "step-1" none,
       .textMessageStart "m2", .textMessageContent "m2" "B",
       .toolCallStart "t1" "get_x"]).contentBlocks =
      [.text "text-1" "A", .steps "steps", .text "text-2" "B",
       .tools "tools"] := by
  decide

/-- C6: tool-call-start, tool-call-args, tool-call-result for one call id on
a fresh run yield exactly one tool-call record with the accumulated args, the
result, and the loading flag cleared by the result event alone (no
tool-call-end was delivered). -/
theorem tool_call_scenario :
    (processEvents initState
      [.toolCallStart "t1" "get_x",
       .toolCallArgs "t1" "\x7b\"a\":1\x7d",
       .toolCallResult "t1" "ok"]).toolCalls =
      [("t1", { id := "t1", name := "get_x", args := "\x7b\"a\":1\x7d",
                result := some "ok", isLoading := false })] ∧
    (processEvents initState
      [.toolCallStart "t1" "get_x",
       .toolCallArgs "t1" "\x7b\"a\":1\x7d",
       .toolCallResult "t1" "ok"]).messages.map ChatMessage.toolCalls =
      [[{ id := "t1", name := "get_x", args := "\x7b\"a\":1\x7d",
          result := some "ok", isLoading := false }]] := by
  constructor <;> decide

/-- C4, counterexample: in the fetch-based handleEvent, a step-finish whose
identifier has no step record is dropped with no state change at all — no
done step is created. -/
theorem step_finish_unknown_dropped :
    mapGet initState.steps "s1" = none ∧
    handleEvent initState (.stepFinished "s1" none) = initState := by
  constructor <;> decide

/-- C4, amended: in the subscriber variant, onStepFinishedEvent creates a
missing step defensively (pending) and immediately finishes it, so an unseen
identifier ends with a done step record. -/
theorem step_finish_unknown_creates_done (st : HookState) (stepName : String)
    (h : mapGet st.steps stepName = none) :
    mapGet (onStepFinishedEvent st stepName).steps stepName =
      some { id := stepName, name := stepName, status := "done",
             activeForm := none } := by
  simp only [onStepFinishedEvent, h]
  simp +decide [updateCurrentMessage_steps, mapGet_mapSet]

/-- Witness for the amended C4 theorem at a concrete state. -/
theorem step_finish_unknown_creates_done_witness :
    mapGet initState.steps "s1" = none ∧
    mapGet (onStepFinishedEvent initState "s1").steps "s1" =
      some { id := "s1", name := "s1", status := "done", activeForm := none } :=
  ⟨by decide, step_finish_unknown_creates_done initState "s1" (by decide)⟩

/-- C10: tool-call-args, tool-call-end and tool-call-result events whose
call id is not in the registry leave the whole state unchanged. -/
theorem unknown_tool_events_noop (st : HookState) (tid d c : String)
    (h : mapGet st.toolCalls tid = none) :
    handleEvent st (.toolCallArgs tid d) = st ∧
    handleEvent st (.toolCallEnd tid) = st ∧
    handleEvent st (.toolCallResult tid c) = st := by
  refine ⟨?_, ?_, ?_⟩ <;> simp [handleEvent, h]

/-- Witness for C10 at a concrete state. -/
theorem unknown_tool_events_noop_witness :
    mapGet initState.toolCalls "t9" = none ∧
    handleEvent initState (.toolCallArgs "t9" "x") = initState ∧
    handleEvent initState (.toolCallEnd "t9") = initState ∧
    handleEvent initState (.toolCallResult "t9" "y") = initState :=
  ⟨by decide, unknown_tool_events_noop initState "t9" "x" "y" (by decide)⟩

/-- C9: a run-error event attaches an error payload (title Error, the event
message as body) to the current message — creating one first if none exists —
clears every per-run accumulator, and deactivates the run. -/
theorem run_error_resets (st : HookState) (msg : String) :
    (handleEvent st (.runError msg)).currentMessage = none ∧
    (handleEvent st (.runError msg)).toolCalls = [] ∧
    (handleEvent st (.runError msg)).steps = [] ∧
    (handleEvent st (.runError msg)).contentBlocks = [] ∧
    (handleEvent st (.runError msg)).currentTextBlockId = none ∧
    (handleEvent st (.runError msg)).hasStepsBlock = false ∧
    (handleEvent st (.runError msg)).hasToolsBlock = false ∧
    (handleEvent st (.runError msg)).runActive = false ∧
    (handleEvent st (.runError msg)).error = some msg ∧
    ∃ m ∈ (handleEvent st (.runError msg)).messages,
      m.error = some { title := "Error", body := msg } ∧
      m.isStreaming = false := by
  obtain ⟨m, hm⟩ := ensure_isSome st
  refine ⟨rfl, rfl, rfl, rfl, rfl, rfl, rfl, rfl, rfl, ?_⟩
  exact ⟨_, updateCurrentMessage_mem _ _ m hm, rfl, rfl⟩

/-- C7: a step-start for an identifier that already has a step record is a
no-op on any well-formed state: no duplicate record, no status change, and
no ledger append or reorder. -/
theorem step_start_idempotent (st : HookState) (stepName : String)
    (stepId : Option String) (step : Step) (hinv : RunInv st)
    (h : mapGet st.steps (resolveStepId stepId stepName) = some step) :
    handleEvent st (.stepStarted stepName stepId) = st := by
  have hsne : st.steps ≠ [] := mapGet_ne_nil h
  have hsb : st.hasStepsBlock = true := hinv.2 hsne
  obtain ⟨m, hm⟩ : ∃ m, st.currentMessage = some m := by
    cases hc : st.currentMessage with
    | none => exact absurd (hinv.1 hc).1 hsne
    | some m => exact ⟨m, rfl⟩
  simp [handleEvent, ensure_of_some st m hm, hsb, h]

/-- Witness for C7 at a concrete state with one existing step. -/
theorem step_start_idempotent_witness :
    RunInv (processEvents initState [.stepStarted "s1" none]) ∧
    mapGet (processEvents initState [.stepStarted "s1" none]).steps
      (resolveStepId none "s1") =
      some { id := "s1", name := "s1", status := "pending", activeForm := none } ∧
    handleEvent (processEvents initState [.stepStarted "s1" none])
      (.stepStarted "s1" none) =
      processEvents initState [.stepStarted "s1" none] :=
  ⟨by decide, by decide,
    step_start_idempotent (processEvents initState [.stepStarted "s1" none])
      "s1" none
      { id := "s1", name := "s1", status := "pending", activeForm := none }
      (by decide) (by decide)⟩

/-- C1: for every valid protocol event sequence (each text delta delivered
inside an open text segment), every message's final flattened content equals
the concatenation, in ledger order, of its text blocks' accumulated
deltas. -/
theorem text_flatten_eq_ledger_concat (evs : List AgUiEvent)
    (hv : validSeq initState evs = true) :
    ∀ m ∈ (processEvents initState evs).messages,
      m.content = flattenText m.contentBlocks :=
  (textInv_processEvents initState evs textInv_init hv).msgs

/-- Witness for C1: a two-segment stream with an interleaved step; flattened
content AB equals the ledger concatenation. -/
theorem text_flatten_eq_ledger_concat_witness :
    validSeq initState
      [.textMessageStart "m1", .textMessageContent "m1" "A",
       .stepStarted "s1" none, .textMessageStart "m2",
       .textMessageContent "m2" "B", .runFinished "r"] = true ∧
    ∀ m ∈ (processEvents initState
      [.textMessageStart "m1", .textMessageContent "m1" "A",
       .stepStarted "s1" none, .textMessageStart "m2",
       .textMessageContent "m2" "B", .runFinished "r"]).messages,
      m.content = flattenText m.contentBlocks :=
  ⟨by decide, text_flatten_eq_ledger_concat
    [.textMessageStart "m1", .textMessageContent "m1" "A",
     .stepStarted "s1" none, .textMessageStart "m2",
     .textMessageContent "m2" "B", .runFinished "r"] (by decide)⟩

end AgUi
